import Mathlib

/-!
Shallow embedding of three Heap-Layers components and proofs about them:

* `HybridHeap` (src/heaps/combining/hybridheap.h): size-routing allocator.
* `BacktraceHeap` (src/heaps/debug/backtraceheap.h): leak-tracking allocator
  with an intrusive doubly-linked registry of allocation records.
* `Callstack` (src/utility/callstack.h): call-stack symbolication tiers.

Pointers are modelled as natural numbers, with `0` playing the role of the
null pointer.  Underlying (nested) heaps are opaque: they are given as pure
functions supplied as parameters, matching the template-parameter style of
the C++ source.  A C `assert` is modelled as a `Bool` that records whether
all assertions executed so far passed; `false` means the process aborted.
-/

namespace HeapLayers

/-! ## HybridHeap (src/heaps/combining/hybridheap.h)

`HybridHeap<BigSize, SmallHeap, BigHeap>` routes `malloc(sz)` to
`SmallHeap::malloc` when `sz <= BigSize` and to `bm.malloc` (the `BigHeap`
member, via `slowPath`) otherwise, then runs three assertions; `free(ptr)`
routes on `SmallHeap::getSize(ptr) <= BigSize`.  The nested heaps are
modelled as pure functions: `malloc` returns an address (`0` = null) and
`getSize` reports a size for any address. -/

/-- Configuration of a `HybridHeap` instantiation: the `BigSize` threshold,
the two nested heaps' `malloc`/`getSize` behaviour and their `Alignment`
constants. -/
structure HybridCfg where
  bigSize : Nat
  smallMalloc : Nat → Nat
  bigMalloc : Nat → Nat
  smallGetSize : Nat → Nat
  bigGetSize : Nat → Nat
  smallAlign : Nat
  bigAlign : Nat

/-- Modelled from the spec: the `gcd` template used for
`enum { Alignment = gcd<SmallHeap::Alignment, BigHeap::Alignment>::value }`
lives in `heaplayers.h`, which is not part of the excerpt; the spec states
the composite alignment is the greatest common divisor of the two nested
alignments. -/
def HybridCfg.alignment (c : HybridCfg) : Nat :=
  Nat.gcd c.smallAlign c.bigAlign

/-- Result of one `HybridHeap::malloc` call: the returned pointer, whether
every executed `assert` passed (`false` = abort), and how many times each
nested heap's `malloc` was invoked. -/
structure HybridOut where
  ptr : Nat
  assertOk : Bool
  smallCalls : Nat
  bigCalls : Nat
  deriving Repr, DecidableEq

/-- `HybridHeap::malloc` (hybridheap.h lines 55-69).  `slowPath` is inlined:
it only forwards to `bm.malloc`.  The three assertions are translated in
source order: when `SmallHeap::getSize(ptr) < sz` the code asserts
`bm.getSize(ptr) >= sz`; then unconditionally `SmallHeap::getSize(ptr) >= sz`
and `ptr % Alignment == 0`. -/
def hybridMalloc (c : HybridCfg) (sz : Nat) : HybridOut :=
  let ptr := if sz ≤ c.bigSize then c.smallMalloc sz else c.bigMalloc sz
  let sc := if sz ≤ c.bigSize then 1 else 0
  let bc := if sz ≤ c.bigSize then 0 else 1
  let a1 := if c.smallGetSize ptr < sz then decide (c.bigGetSize ptr ≥ sz) else true
  let a2 := decide (c.smallGetSize ptr ≥ sz)
  let a3 := decide (ptr % c.alignment = 0)
  ⟨ptr, a1 && a2 && a3, sc, bc⟩

/-- Which nested heap `HybridHeap::free` releases through. -/
inductive FreeTarget
  | small
  | big
  deriving Repr, DecidableEq

/-- `HybridHeap::free` (hybridheap.h lines 71-77): queries
`SmallHeap::getSize(ptr)` and routes to `SmallHeap::free` when the reported
size is `<= BigSize`, else to `bm.free`. -/
def hybridFreeTarget (c : HybridCfg) (p : Nat) : FreeTarget :=
  if c.smallGetSize p ≤ c.bigSize then .small else .big

theorem hybridMalloc_ptr (c : HybridCfg) (sz : Nat) :
    (hybridMalloc c sz).ptr =
      if sz ≤ c.bigSize then c.smallMalloc sz else c.bigMalloc sz := rfl

theorem hybridMalloc_calls (c : HybridCfg) (sz : Nat) :
    (hybridMalloc c sz).smallCalls = (if sz ≤ c.bigSize then 1 else 0) ∧
    (hybridMalloc c sz).bigCalls = (if sz ≤ c.bigSize then 0 else 1) :=
  ⟨rfl, rfl⟩

theorem hybridMalloc_assertOk (c : HybridCfg) (sz : Nat) :
    (hybridMalloc c sz).assertOk =
      (decide (c.smallGetSize (hybridMalloc c sz).ptr ≥ sz) &&
       decide ((hybridMalloc c sz).ptr % c.alignment = 0)) := by
  have h0 : (hybridMalloc c sz).assertOk =
      ((if c.smallGetSize (hybridMalloc c sz).ptr < sz
        then decide (c.bigGetSize (hybridMalloc c sz).ptr ≥ sz) else true) &&
       decide (c.smallGetSize (hybridMalloc c sz).ptr ≥ sz) &&
       decide ((hybridMalloc c sz).ptr % c.alignment = 0)) := rfl
  rw [h0]
  by_cases h : c.smallGetSize (hybridMalloc c sz).ptr < sz
  · simp [h, Nat.not_le.mpr h]
  · simp [h]

/-- C1: for every request size `n`, `HybridHeap::malloc(n)` returns the
result of `SmallHeap::malloc(n)` and invokes only `SmallHeap`'s `malloc`
when `n <= BigSize`, and returns the result of `BigHeap`'s `malloc` and
invokes only it when `n > BigSize`: the request is serviced by exactly one
underlying allocator. -/
theorem routing_allocate_dispatch (c : HybridCfg) (sz : Nat) :
    (sz ≤ c.bigSize →
      (hybridMalloc c sz).ptr = c.smallMalloc sz ∧
      (hybridMalloc c sz).smallCalls = 1 ∧ (hybridMalloc c sz).bigCalls = 0) ∧
    (c.bigSize < sz →
      (hybridMalloc c sz).ptr = c.bigMalloc sz ∧
      (hybridMalloc c sz).smallCalls = 0 ∧ (hybridMalloc c sz).bigCalls = 1) := by
  constructor
  · intro h
    simp [hybridMalloc, h]
  · intro h
    simp [hybridMalloc, Nat.not_le.mpr h]

/-- C1 witness: with a threshold of 8, a request of 3 bytes is serviced by
the small heap alone and a request of 100 bytes by the big heap alone. -/
theorem routing_allocate_dispatch_witness :
    ((3 ≤ 8 ∧
      (hybridMalloc ⟨8, fun _ => 40, fun _ => 80, fun _ => 0, fun _ => 0, 8, 8⟩ 3).ptr = 40 ∧
      (hybridMalloc ⟨8, fun _ => 40, fun _ => 80, fun _ => 0, fun _ => 0, 8, 8⟩ 3).smallCalls = 1 ∧
      (hybridMalloc ⟨8, fun _ => 40, fun _ => 80, fun _ => 0, fun _ => 0, 8, 8⟩ 3).bigCalls = 0) ∧
     (8 < 100 ∧
      (hybridMalloc ⟨8, fun _ => 40, fun _ => 80, fun _ => 0, fun _ => 0, 8, 8⟩ 100).ptr = 80 ∧
      (hybridMalloc ⟨8, fun _ => 40, fun _ => 80, fun _ => 0, fun _ => 0, 8, 8⟩ 100).smallCalls = 0 ∧
      (hybridMalloc ⟨8, fun _ => 40, fun _ => 80, fun _ => 0, fun _ => 0, 8, 8⟩ 100).bigCalls = 1)) := by
  refine ⟨⟨by decide, (routing_allocate_dispatch _ 3).1 (by decide)⟩,
          ⟨by decide, (routing_allocate_dispatch _ 100).2 (by decide)⟩⟩

/-- C2: `HybridHeap::free(ptr)` queries `SmallHeap::getSize(ptr)` and routes
the release to `SmallHeap` when the reported size is `<= BigSize` and to the
`BigHeap` member otherwise; the decision depends only on that reported size
and the threshold, no other information. -/
theorem routing_release_dispatch (c : HybridCfg) (p : Nat) :
    (c.smallGetSize p ≤ c.bigSize → hybridFreeTarget c p = .small) ∧
    (c.bigSize < c.smallGetSize p → hybridFreeTarget c p = .big) ∧
    (∀ c' : HybridCfg, ∀ p' : Nat, c'.smallGetSize p' = c.smallGetSize p →
      c'.bigSize = c.bigSize → hybridFreeTarget c' p' = hybridFreeTarget c p) := by
  refine ⟨fun h => ?_, fun h => ?_, fun c' p' hg hb => ?_⟩
  · simp [hybridFreeTarget, h]
  · simp [hybridFreeTarget, Nat.not_le.mpr h]
  · simp [hybridFreeTarget, hg, hb]

/-- C2 witness: with a threshold of 8, a pointer whose reported small-heap
size is 4 is released through the small heap, and one whose reported size is
9 through the big heap. -/
theorem routing_release_dispatch_witness :
    ((⟨8, id, id, fun _ => 4, id, 8, 8⟩ : HybridCfg).smallGetSize 7 ≤ 8 ∧
      hybridFreeTarget ⟨8, id, id, fun _ => 4, id, 8, 8⟩ 7 = .small) ∧
    (8 < (⟨8, id, id, fun _ => 9, id, 8, 8⟩ : HybridCfg).smallGetSize 7 ∧
      hybridFreeTarget ⟨8, id, id, fun _ => 9, id, 8, 8⟩ 7 = .big) :=
  ⟨⟨by decide, (routing_release_dispatch ⟨8, id, id, fun _ => 4, id, 8, 8⟩ 7).1 (by decide)⟩,
   ⟨by decide, (routing_release_dispatch ⟨8, id, id, fun _ => 9, id, 8, 8⟩ 7).2.1 (by decide)⟩⟩

/-- Concrete configuration refuting C3's "no abort": the small heap is
exhausted (`malloc` returns null) and reports size 0 for the null pointer. -/
def cfgNull : HybridCfg :=
  ⟨8, fun _ => 0, fun _ => 100, fun _ => 0, fun _ => 0, 8, 8⟩

/-- C3 counterexample: for request size 1 the chosen allocator (the small
heap, since `1 <= 8`) returns null; `malloc` does return that null pointer,
but the post-allocation assertions — executed on the null pointer — fail,
so the call aborts rather than returning, contradicting "no abort". -/
theorem routing_null_abort_cex :
    1 ≤ cfgNull.bigSize ∧ cfgNull.smallMalloc 1 = 0 ∧
    (hybridMalloc cfgNull 1).ptr = 0 ∧
    (hybridMalloc cfgNull 1).assertOk = false := by decide

/-- C3 amended: if the underlying allocator chosen by the routing returns
null, `malloc` forwards that null result with no retry and no fallback
allocation from the other allocator (exactly one nested `malloc` call is
made); however the post-allocation assertions still execute on the null
pointer, and they abort the process unless the small heap reports a size
`>= n` for the null pointer. -/
theorem routing_null_propagation (c : HybridCfg) (sz : Nat)
    (h : (if sz ≤ c.bigSize then c.smallMalloc sz else c.bigMalloc sz) = 0) :
    (hybridMalloc c sz).ptr = 0 ∧
    (sz ≤ c.bigSize →
      (hybridMalloc c sz).smallCalls = 1 ∧ (hybridMalloc c sz).bigCalls = 0) ∧
    (c.bigSize < sz →
      (hybridMalloc c sz).smallCalls = 0 ∧ (hybridMalloc c sz).bigCalls = 1) ∧
    ((hybridMalloc c sz).assertOk = true ↔ sz ≤ c.smallGetSize 0) := by
  have hp : (hybridMalloc c sz).ptr = 0 := by rw [hybridMalloc_ptr, h]
  refine ⟨hp, fun hr => ?_, fun hr => ?_, ?_⟩
  · simp [hybridMalloc, hr]
  · simp [hybridMalloc, Nat.not_le.mpr hr]
  · rw [hybridMalloc_assertOk, hp]
    simp [Nat.zero_mod, ge_iff_le]

/-- C3 amended witness: in a configuration whose small heap is exhausted
but reports size 5 for the null pointer, a 1-byte request returns null with
one small-heap call, no big-heap call, and passing assertions. -/
theorem routing_null_propagation_witness :
    ((if 1 ≤ (8:Nat) then (0:Nat) else 100) = 0) ∧
    (hybridMalloc ⟨8, fun _ => 0, fun _ => 100, fun _ => 5, fun _ => 0, 8, 8⟩ 1).ptr = 0 ∧
    (hybridMalloc ⟨8, fun _ => 0, fun _ => 100, fun _ => 5, fun _ => 0, 8, 8⟩ 1).smallCalls = 1 ∧
    (hybridMalloc ⟨8, fun _ => 0, fun _ => 100, fun _ => 5, fun _ => 0, 8, 8⟩ 1).bigCalls = 0 ∧
    (hybridMalloc ⟨8, fun _ => 0, fun _ => 100, fun _ => 5, fun _ => 0, 8, 8⟩ 1).assertOk = true := by
  have h := routing_null_propagation ⟨8, fun _ => 0, fun _ => 100, fun _ => 5, fun _ => 0, 8, 8⟩ 1
    (by decide)
  exact ⟨by decide, h.1, (h.2.1 (by decide)).1, (h.2.1 (by decide)).2, h.2.2.2.mpr (by decide)⟩

/-- Concrete configuration refuting C4: a 10-byte request is serviced by the
big heap, whose reported size (16) is `>= 10`, and the returned pointer 16
is a multiple of the composite alignment `gcd 8 8 = 8`; but the small heap
reports size 0 for that pointer. -/
def cfgBigOk : HybridCfg :=
  ⟨8, fun _ => 0, fun _ => 16, fun _ => 0, fun _ => 16, 8, 8⟩

/-- C4 counterexample: a successful allocation for which the claim's
condition holds — the allocator that actually serviced the request reports
a usable size `>= n` and the pointer satisfies the composite alignment —
yet the assertions performed by the code fail, because the unconditional
size assertion consults `SmallHeap::getSize` even for big-heap requests. -/
theorem routing_assert_cex :
    cfgBigOk.bigSize < 10 ∧
    (hybridMalloc cfgBigOk 10).ptr = cfgBigOk.bigMalloc 10 ∧
    (hybridMalloc cfgBigOk 10).ptr ≠ 0 ∧
    10 ≤ cfgBigOk.bigGetSize ((hybridMalloc cfgBigOk 10).ptr) ∧
    (hybridMalloc cfgBigOk 10).ptr % cfgBigOk.alignment = 0 ∧
    (hybridMalloc cfgBigOk 10).assertOk = false := by decide

/-- C4 amended: the assertions performed after `malloc(n)` pass if and only
if the size reported by the *small* heap for the returned pointer is `>= n`
and the pointer is a multiple of the composite alignment (the gcd of the two
nested alignments); the size check always consults `SmallHeap::getSize`,
whichever allocator serviced the request (with an auxiliary check of the big
heap's reported size when the small heap's report is below `n`), and any
violation is a fatal assertion failure, not a recoverable error. -/
theorem routing_assert_characterization (c : HybridCfg) (sz : Nat) :
    ((hybridMalloc c sz).assertOk = true ↔
      (sz ≤ c.smallGetSize ((hybridMalloc c sz).ptr) ∧
       (hybridMalloc c sz).ptr % c.alignment = 0)) ∧
    c.alignment = Nat.gcd c.smallAlign c.bigAlign := by
  refine ⟨?_, rfl⟩
  rw [hybridMalloc_assertOk]
  simp [ge_iff_le]

/-! ## BacktraceHeap (src/heaps/debug/backtraceheap.h)

`BacktraceHeap<SuperHeap, stackSize>` prepends a `TraceObj` header to every
allocation and keeps the live headers in an intrusive doubly-linked list
rooted at `_objects`.  Memory is modelled as a total function from record
addresses (`Nat`, `0` = null) to `TraceObj` values; `hdr` stands for
`sizeof(TraceObj)` and payload pointers are record address plus `hdr`
(`obj + 1` in the C++ source).  The super heap is opaque: the address it
returns for a given `malloc` call and its `getSize` function are
parameters. -/

/-- The `TraceObj` header (backtraceheap.h lines 34-44): the captured call
stack (`nFrames` is its length) and the intrusive `next`/`prev` links
(`0` = null). -/
structure TraceObj where
  callStack : List Nat
  next : Nat
  prev : Nat
  deriving Repr, DecidableEq

/-- Pointwise memory update at one record address. -/
def upd (m : Nat → TraceObj) (x : Nat) (r : TraceObj) : Nat → TraceObj :=
  fun y => if y = x then r else m y

/-- The registry state of a `BacktraceHeap` instance: the record memory and
the `_objects` head pointer (`0` = null). -/
structure BtState where
  mem : Nat → TraceObj
  objects : Nat

/-- `BacktraceHeap::link` (backtraceheap.h lines 46-53): set `obj->prev` to
null and `obj->next` to `_objects`, patch the old head's `prev`, and make
`obj` the new head. -/
def link (s : BtState) (a : Nat) : BtState :=
  let m1 := upd s.mem a { s.mem a with prev := 0, next := s.objects }
  let m2 := if s.objects ≠ 0 then upd m1 s.objects { m1 s.objects with prev := a } else m1
  ⟨m2, a⟩

/-- Memory effect of `BacktraceHeap::unlink` (backtraceheap.h lines 55-61):
patch the predecessor's `next` and then the successor's `prev`, re-reading
`obj`'s fields between the two writes exactly as the source does. -/
def unlinkMem (mem : Nat → TraceObj) (a : Nat) : Nat → TraceObj :=
  let m1 := if (mem a).prev ≠ 0
    then upd mem ((mem a).prev) { mem ((mem a).prev) with next := (mem a).next }
    else mem
  if (m1 a).next ≠ 0
    then upd m1 ((m1 a).next) { m1 ((m1 a).next) with prev := (m1 a).prev }
    else m1

/-- `BacktraceHeap::unlink`: the head pointer moves to `obj->next` when
`obj` was the head (read before any write, as in the source), and the
neighbour links are patched by `unlinkMem`. -/
def unlink (s : BtState) (a : Nat) : BtState :=
  ⟨unlinkMem s.mem a, if s.objects = a then (s.mem a).next else s.objects⟩

/-- `BacktraceHeap::clear_leaks` (backtraceheap.h lines 113-116): reset the
head pointer without touching any record. -/
def clearLeaks (s : BtState) : BtState :=
  ⟨s.mem, 0⟩

/-- Result of one `BacktraceHeap::malloc` call: the pointer returned to the
caller (`0` = null), the size requested from the super heap, and the new
registry state. -/
structure BtMallocOut where
  ret : Nat
  reqSize : Nat
  state : BtState

/-- `BacktraceHeap::malloc` (backtraceheap.h lines 85-96): request
`sz + sizeof(TraceObj)` from the super heap; on null return null with no
state change; otherwise store the captured backtrace `bt` in the new record
at address `a`, link it, and return `obj + 1`.  `a` is the address the
super heap returned for this call and `bt` the frames `backtrace` wrote. -/
def btMalloc (hdr : Nat) (s : BtState) (sz : Nat) (a : Nat) (bt : List Nat) : BtMallocOut :=
  if a = 0 then ⟨0, sz + hdr, s⟩
  else ⟨a + hdr, sz + hdr, link ⟨upd s.mem a { s.mem a with callStack := bt }, s.objects⟩ a⟩

/-- `BacktraceHeap::free` (backtraceheap.h lines 99-105): step back one
header from the payload pointer and unlink that record (the block is then
released through the super heap, which has no registry effect). -/
def btFree (hdr : Nat) (s : BtState) (p : Nat) : BtState :=
  unlink s (p - hdr)

/-- `BacktraceHeap::getSize` (backtraceheap.h lines 108-110): the super
heap's reported size for the record address, minus the header width. -/
def btGetSize (superGetSize : Nat → Nat) (hdr : Nat) (p : Nat) : Nat :=
  superGetSize (p - hdr) - hdr

/-- The doubly-linked chain predicate: starting from predecessor `p` and
head pointer `h`, the records listed in `l` (address paired with stored
call stack) are linked in order, ending in a null `next`. -/
def chainFrom (mem : Nat → TraceObj) : Nat → Nat → List (Nat × List Nat) → Prop
  | _, h, [] => h = 0
  | p, h, q :: l =>
      h = q.1 ∧ q.1 ≠ 0 ∧ (mem q.1).prev = p ∧ (mem q.1).callStack = q.2 ∧
      chainFrom mem q.1 (mem q.1).next l

/-- The registry represents the live-record list `l` (newest first): the
chain starts at `_objects` with null predecessor and the record addresses
are pairwise distinct. -/
def represents (s : BtState) (l : List (Nat × List Nat)) : Prop :=
  chainFrom s.mem 0 s.objects l ∧ (l.map Prod.fst).Nodup

theorem chainFrom_congr {mem mem' : Nat → TraceObj} :
    ∀ {l : List (Nat × List Nat)} {p h : Nat},
    (∀ q ∈ l, mem' q.1 = mem q.1) → chainFrom mem p h l → chainFrom mem' p h l := by
  intro l
  induction l with
  | nil => intro p h _ hc; exact hc
  | cons q l ih =>
    intro p h hag hc
    obtain ⟨h1, h2, h3, h4, h5⟩ := hc
    have hq : mem' q.1 = mem q.1 := hag q (List.mem_cons_self q l)
    refine ⟨h1, h2, by rw [hq]; exact h3, by rw [hq]; exact h4, ?_⟩
    rw [hq]
    exact ih (fun r hr => hag r (List.mem_cons_of_mem q hr)) h5

theorem chainFrom_ne_zero {mem : Nat → TraceObj} :
    ∀ {l : List (Nat × List Nat)} {p h : Nat},
    chainFrom mem p h l → ∀ q ∈ l, q.1 ≠ 0 := by
  intro l
  induction l with
  | nil => intro p h _ q hq; cases hq
  | cons r l ih =>
    intro p h hc q hq
    obtain ⟨_, h2, _, _, h5⟩ := hc
    rcases List.mem_cons.mp hq with hq | hq
    · rw [hq]; exact h2
    · exact ih h5 q hq

theorem upd_same (m : Nat → TraceObj) (x : Nat) (r : TraceObj) : upd m x r x = r := by
  simp [upd]

theorem upd_ne (m : Nat → TraceObj) (x : Nat) (r : TraceObj) {y : Nat} (h : y ≠ x) :
    upd m x r y = m y := by
  simp [upd, h]

/-- Linking a fresh nonzero record puts it at the head of the represented
list, preserving the rest of the chain. -/
theorem represents_link {s : BtState} {l : List (Nat × List Nat)} {a : Nat}
    (hr : represents s l) (ha : a ≠ 0) (hm : a ∉ l.map Prod.fst) :
    represents (link s a) ((a, (s.mem a).callStack) :: l) := by
  obtain ⟨hc, hnd⟩ := hr
  cases l with
  | nil =>
    have hobj : s.objects = 0 := hc
    refine ⟨?_, by simp⟩
    show chainFrom (link s a).mem 0 (link s a).objects [(a, (s.mem a).callStack)]
    have hmem : (link s a).mem a = { s.mem a with prev := 0, next := s.objects } := by
      simp [link, hobj, upd]
    refine ⟨rfl, ha, ?_, ?_, ?_⟩
    · rw [show (link s a).mem = (link s a).mem from rfl, hmem]
    · rw [hmem]
    · show ((link s a).mem a).next = 0
      rw [hmem]
      exact hobj
  | cons q l' =>
    obtain ⟨hq1, hq2, hq3, hq4, hq5⟩ := hc
    have haq : a ≠ q.1 := fun h => hm (by simp [h])
    have hm' : a ∉ l'.map Prod.fst := fun h => hm (by simp [h])
    have hqn : q.1 ∉ l'.map Prod.fst := by
      have := hnd
      simp only [List.map_cons, List.nodup_cons] at this
      exact this.1
    have hobj : s.objects = q.1 := hq1
    have hmema : (link s a).mem a = { s.mem a with prev := 0, next := s.objects } := by
      simp [link, hobj, hq2, upd, haq]
    have hmemq : (link s a).mem q.1 =
        { s.mem q.1 with prev := a } := by
      simp [link, hobj, hq2, upd, haq.symm, (Ne.symm haq)]
    have hmemo : ∀ r ∈ l', (link s a).mem r.1 = s.mem r.1 := by
      intro r hrm
      have hra : r.1 ≠ a := by
        intro h; exact hm' (h ▸ List.mem_map_of_mem Prod.fst hrm)
      have hrq : r.1 ≠ q.1 := by
        intro h; exact hqn (h ▸ List.mem_map_of_mem Prod.fst hrm)
      simp [link, hobj, hq2, upd, hra, hrq]
    refine ⟨?_, ?_⟩
    · show chainFrom (link s a).mem 0 (link s a).objects ((a, (s.mem a).callStack) :: q :: l')
      refine ⟨rfl, ha, by rw [hmema], by rw [hmema], ?_⟩
      have hnx : ((link s a).mem a).next = q.1 := by rw [hmema]; exact hobj
      rw [hnx]
      refine ⟨rfl, hq2, by rw [hmemq], by rw [hmemq]; exact hq4, ?_⟩
      have hnq : ((link s a).mem q.1).next = (s.mem q.1).next := by rw [hmemq]
      rw [hnq]
      exact chainFrom_congr hmemo hq5
    · simp only [List.map_cons, List.nodup_cons]
      refine ⟨by simpa using hm, by simpa using hnd⟩

theorem upd_setNext_callStack (m : Nat → TraceObj) (y n x : Nat) :
    (upd m y { m y with next := n } x).callStack = (m x).callStack := by
  by_cases h : x = y
  · subst h; rw [upd_same]
  · rw [upd_ne _ _ _ h]

theorem upd_setPrev_callStack (m : Nat → TraceObj) (y p x : Nat) :
    (upd m y { m y with prev := p } x).callStack = (m x).callStack := by
  by_cases h : x = y
  · subst h; rw [upd_same]
  · rw [upd_ne _ _ _ h]

theorem upd_setNext_prev (m : Nat → TraceObj) (y n x : Nat) :
    (upd m y { m y with next := n } x).prev = (m x).prev := by
  by_cases h : x = y
  · subst h; rw [upd_same]
  · rw [upd_ne _ _ _ h]

theorem upd_setPrev_next (m : Nat → TraceObj) (y p x : Nat) :
    (upd m y { m y with prev := p } x).next = (m x).next := by
  by_cases h : x = y
  · subst h; rw [upd_same]
  · rw [upd_ne _ _ _ h]

theorem unlinkMem_callStack (mem : Nat → TraceObj) (a x : Nat) :
    (unlinkMem mem a x).callStack = (mem x).callStack := by
  simp only [unlinkMem]
  split_ifs with h1 h2 h2
  · rw [upd_setPrev_callStack, upd_setNext_callStack]
  · rw [upd_setNext_callStack]
  · rw [upd_setPrev_callStack]
  · rfl

theorem unlinkMem_prevField {mem : Nat → TraceObj} {a x : Nat}
    (haP : a ≠ (mem a).prev) (hxN : x ≠ (mem a).next) :
    (unlinkMem mem a x).prev = (mem x).prev := by
  simp only [unlinkMem]
  split_ifs with h1 h2 h2
  · rw [upd_ne _ _ _ haP, upd_ne _ _ _ hxN, upd_setNext_prev]
  · rw [upd_setNext_prev]
  · rw [upd_ne _ _ _ hxN]
  · rfl

theorem unlinkMem_nextField {mem : Nat → TraceObj} {a x : Nat}
    (hxP : x ≠ (mem a).prev) :
    (unlinkMem mem a x).next = (mem x).next := by
  simp only [unlinkMem]
  split_ifs with h1 h2 h2
  · rw [upd_setPrev_next, upd_ne _ _ _ hxP]
  · rw [upd_ne _ _ _ hxP]
  · rw [upd_setPrev_next]
  · rfl

theorem unlinkMem_other {mem : Nat → TraceObj} {a x : Nat}
    (hx1 : x ≠ (mem a).prev) (hx2 : x ≠ (mem a).next) (haP : a ≠ (mem a).prev) :
    unlinkMem mem a x = mem x := by
  simp only [unlinkMem]
  split_ifs with h1 h2 h2
  · rw [upd_ne _ _ _ haP, upd_ne _ _ _ hx2, upd_ne _ _ _ hx1]
  · rw [upd_ne _ _ _ hx1]
  · rw [upd_ne _ _ _ hx2]
  · rfl

theorem unlinkMem_nextAtPrev {mem : Nat → TraceObj} {a : Nat}
    (hP : (mem a).prev ≠ 0) :
    (unlinkMem mem a ((mem a).prev)).next = (mem a).next := by
  simp only [unlinkMem]
  split_ifs
  · rw [upd_setPrev_next, upd_same]
  · rw [upd_same]

theorem unlinkMem_atNext {mem : Nat → TraceObj} {a : Nat}
    (hN : (mem a).next ≠ 0) (haP : a ≠ (mem a).prev)
    (hPN : (mem a).prev ≠ (mem a).next) :
    unlinkMem mem a ((mem a).next) = { mem ((mem a).next) with prev := (mem a).prev } := by
  simp only [unlinkMem]
  split_ifs with h1 h2
  · rw [upd_ne _ _ _ haP, upd_same, upd_ne _ _ _ (Ne.symm hPN)]
  · rw [upd_ne _ _ _ haP] at h2; exact absurd hN h2
  · rw [upd_same]

theorem getLastD_mem_of_ne_nil : ∀ {l : List Nat}, l ≠ [] → ∀ (d : Nat), l.getLastD d ∈ l := by
  intro l
  induction l with
  | nil => intro h; exact absurd rfl h
  | cons x l' ih =>
    intro _ d
    rw [List.getLastD_cons]
    cases l' with
    | nil => simp
    | cons y t => exact List.mem_cons_of_mem x (ih (by simp) x)

theorem chainFrom_next_eq {mem : Nat → TraceObj} {a : Nat} {f : List Nat}
    {l2 : List (Nat × List Nat)} :
    ∀ (l1 : List (Nat × List Nat)) (p h : Nat),
    chainFrom mem p h (l1 ++ (a, f) :: l2) → (mem a).next = (l2.map Prod.fst).headD 0 := by
  intro l1
  induction l1 with
  | nil =>
    intro p h hc
    obtain ⟨_, _, _, _, h5⟩ := hc
    cases l2 with
    | nil => exact h5
    | cons r l2' => exact h5.1
  | cons q l1' ih =>
    intro p h hc
    exact ih q.1 (mem q.1).next hc.2.2.2.2

theorem chainFrom_prev_eq {mem : Nat → TraceObj} {a : Nat} {f : List Nat}
    {l2 : List (Nat × List Nat)} :
    ∀ (l1 : List (Nat × List Nat)) (p h : Nat),
    chainFrom mem p h (l1 ++ (a, f) :: l2) →
    (mem a).prev = (l1.map Prod.fst).getLastD p := by
  intro l1
  induction l1 with
  | nil =>
    intro p h hc
    exact hc.2.2.1
  | cons q l1' ih =>
    intro p h hc
    rw [List.map_cons, List.getLastD_cons]
    exact ih q.1 (mem q.1).next hc.2.2.2.2

theorem getLastD_cases (l : List Nat) (d : Nat) : l.getLastD d = d ∨ l.getLastD d ∈ l := by
  cases l with
  | nil => exact Or.inl rfl
  | cons x t => exact Or.inr (getLastD_mem_of_ne_nil (by simp) d)

theorem nodup_split_left {l1 l2 : List (Nat × List Nat)} {a : Nat} {f : List Nat}
    (hnd : ((l1 ++ (a, f) :: l2).map Prod.fst).Nodup) : a ∉ l1.map Prod.fst := by
  rw [List.map_append] at hnd
  intro hmem
  exact (List.nodup_append.mp hnd).2.2 hmem (by simp)

theorem nodup_split_right {l1 l2 : List (Nat × List Nat)} {a : Nat} {f : List Nat}
    (hnd : ((l1 ++ (a, f) :: l2).map Prod.fst).Nodup) : a ∉ l2.map Prod.fst := by
  rw [List.map_append] at hnd
  have h := (List.nodup_append.mp hnd).2.1
  simp only [List.map_cons, List.nodup_cons] at h
  exact h.1

theorem chainFrom_unlink {mem : Nat → TraceObj} {a : Nat} {f : List Nat}
    {l2 : List (Nat × List Nat)} :
    ∀ (l1 : List (Nat × List Nat)) (p h : Nat),
    chainFrom mem p h (l1 ++ (a, f) :: l2) →
    ((l1 ++ (a, f) :: l2).map Prod.fst).Nodup →
    (∀ q ∈ l1 ++ (a, f) :: l2, q.1 ≠ p) →
    chainFrom (unlinkMem mem a) p (if h = a then (mem a).next else h) (l1 ++ l2) := by
  intro l1
  induction l1 with
  | nil =>
    intro p h hc hnd hp
    obtain ⟨h1, h2, h3, h4, h5⟩ := hc
    have hap : a ≠ p := hp (a, f) (by simp)
    have haP : a ≠ (mem a).prev := by rw [h3]; exact hap
    rw [h1, if_pos rfl]
    cases l2 with
    | nil => exact h5
    | cons r l2' =>
      obtain ⟨hr1, hr2, hr3, hr4, hr5⟩ := h5
      have hndr : a ∉ (r :: l2').map Prod.fst := nodup_split_right hnd
      have harn : a ≠ r.1 := fun he => hndr (by simp [he])
      have hrp : r.1 ≠ p := hp r (by simp)
      have hPN : (mem a).prev ≠ (mem a).next := by
        rw [h3, hr1]; exact fun he => hrp he.symm
      have hatn := unlinkMem_atNext (by rw [hr1]; exact hr2) haP hPN
      rw [hr1] at hatn
      rw [hr1]
      refine ⟨rfl, hr2, ?_, ?_, ?_⟩
      · rw [hatn]; exact h3
      · rw [hatn]; exact hr4
      · have hnx : ((unlinkMem mem a) r.1).next = (mem r.1).next := by rw [hatn]
        rw [hnx]
        refine chainFrom_congr ?_ hr5
        intro x hx
        have hxr : x.1 ≠ r.1 := by
          intro he
          have : r.1 ∈ l2'.map Prod.fst := he ▸ List.mem_map_of_mem Prod.fst hx
          simp only [List.nil_append, List.map_cons, List.nodup_cons] at hnd
          exact hnd.2.1 this
        refine unlinkMem_other ?_ ?_ haP
        · rw [h3]; exact hp x (by simp [hx])
        · rw [hr1]; exact hxr
  | cons q l1' ih =>
    intro p h hc hnd hp
    have hNfact := chainFrom_next_eq (q :: l1') p h hc
    have hPfact := chainFrom_prev_eq (q :: l1') p h hc
    obtain ⟨h1, h2, h3, h4, h5⟩ := hc
    have hqrest : q.1 ∉ (l1' ++ (a, f) :: l2).map Prod.fst := by
      simp only [List.cons_append, List.map_cons, List.nodup_cons] at hnd
      exact hnd.1
    have hqa : q.1 ≠ a := fun he => hqrest (by simp [he])
    have haleft : a ∉ (q :: l1').map Prod.fst := nodup_split_left hnd
    have haP : a ≠ (mem a).prev := by
      rw [hPfact]
      rcases getLastD_cases ((q :: l1').map Prod.fst) p with hg | hg
      · rw [hg]; exact hp (a, f) (by simp)
      · intro he
        rw [← he] at hg
        exact haleft hg
    have hqN : q.1 ≠ (mem a).next := by
      rw [hNfact]
      cases l2 with
      | nil => simpa using h2
      | cons r l2' =>
        simp only [List.map_cons, List.headD_cons]
        intro he
        refine hqrest ?_
        rw [List.map_append]
        exact List.mem_append_right _ (by simp [he])
    rw [h1, if_neg hqa]
    refine ⟨rfl, h2, ?_, ?_, ?_⟩
    · rw [unlinkMem_prevField haP hqN]; exact h3
    · rw [unlinkMem_callStack]; exact h4
    · have hndtail : ((l1' ++ (a, f) :: l2).map Prod.fst).Nodup := by
        simp only [List.cons_append, List.map_cons, List.nodup_cons] at hnd
        exact hnd.2
      have hptail : ∀ x ∈ l1' ++ (a, f) :: l2, x.1 ≠ q.1 := by
        intro x hx he
        exact hqrest (he ▸ List.mem_map_of_mem Prod.fst hx)
      have ihr := ih q.1 (mem q.1).next h5 hndtail hptail
      cases l1' with
      | nil =>
        have hqnext : (mem q.1).next = a := h5.1
        rw [hqnext, if_pos rfl] at ihr
        have hPq : (mem a).prev = q.1 := by
          simpa using hPfact
        have hnxt : ((unlinkMem mem a) q.1).next = (mem a).next := by
          have h6 := unlinkMem_nextAtPrev (a := a) (by rw [hPq]; exact h2)
          rw [hPq] at h6
          exact h6
        rw [hnxt]
        exact ihr
      | cons r l1'' =>
        have hqnext : (mem q.1).next = r.1 := h5.1
        have hra : r.1 ≠ a := by
          intro he
          exact nodup_split_left hnd (by simp [he])
        rw [hqnext, if_neg hra] at ihr
        have hqP : q.1 ≠ (mem a).prev := by
          rw [hPfact, List.map_cons, List.getLastD_cons]
          have hmem := getLastD_mem_of_ne_nil (l := (r :: l1'').map Prod.fst) (by simp) q.1
          intro he
          rw [← he] at hmem
          refine hqrest ?_
          rw [List.map_append]
          exact List.mem_append_left _ hmem
        rw [unlinkMem_nextField hqP, hqnext]
        exact ihr

/-- Unlinking a record that occurs in the represented list removes exactly
that record and preserves the chain around it. -/
theorem represents_unlink {s : BtState} {l1 l2 : List (Nat × List Nat)} {a : Nat}
    {f : List Nat} (hr : represents s (l1 ++ (a, f) :: l2)) :
    represents (unlink s a) (l1 ++ l2) := by
  obtain ⟨hc, hnd⟩ := hr
  constructor
  · exact chainFrom_unlink l1 0 s.objects hc hnd (fun q hq => chainFrom_ne_zero hc q hq)
  · have hsub : List.Sublist ((l1 ++ l2).map Prod.fst)
        ((l1 ++ (a, f) :: l2).map Prod.fst) :=
      List.Sublist.map Prod.fst ((List.sublist_cons_self (a, f) l2).append_left l1)
    exact List.Nodup.sublist hsub hnd

/-- Writing the captured backtrace into a fresh record leaves the chain
untouched. -/
theorem represents_writeStack {s : BtState} {l : List (Nat × List Nat)} {a : Nat}
    {bt : List Nat} (hr : represents s l) (hm : a ∉ l.map Prod.fst) :
    represents ⟨upd s.mem a { s.mem a with callStack := bt }, s.objects⟩ l := by
  obtain ⟨hc, hnd⟩ := hr
  refine ⟨chainFrom_congr ?_ hc, hnd⟩
  intro q hq
  exact upd_ne _ _ _ (fun he => hm (he ▸ List.mem_map_of_mem Prod.fst hq))

/-- A successful `BacktraceHeap::malloc` prepends its new record (with the
captured backtrace) to the represented live list. -/
theorem represents_btMalloc {s : BtState} {l : List (Nat × List Nat)}
    {hdr sz a : Nat} {bt : List Nat}
    (hr : represents s l) (ha : a ≠ 0) (hm : a ∉ l.map Prod.fst) :
    represents (btMalloc hdr s sz a bt).state ((a, bt) :: l) := by
  have hs1 : represents ⟨upd s.mem a { s.mem a with callStack := bt }, s.objects⟩ l :=
    represents_writeStack hr hm
  have hl := represents_link hs1 ha hm
  have hcs : (upd s.mem a { s.mem a with callStack := bt } a).callStack = bt := by
    rw [upd_same]
  rw [hcs] at hl
  simp only [btMalloc, if_neg ha]
  exact hl

/-- One allocation or release event as seen by the registry: for an
allocation, the address the super heap returned (`0` = null) and the frames
the `backtrace` call captured; for a release, the record address whose
payload pointer (`a + hdr`) the caller passes to `free`. -/
inductive HeapOp
  | alloc (sz a : Nat) (bt : List Nat)
  | release (a : Nat)
  deriving Repr, DecidableEq

/-- Run a sequence of allocate/release events through the registry
operations of `BacktraceHeap`. -/
def runOps (hdr : Nat) : BtState → List HeapOp → BtState
  | s, [] => s
  | s, HeapOp.alloc sz a bt :: r => runOps hdr (btMalloc hdr s sz a bt).state r
  | s, HeapOp.release a :: r => runOps hdr (btFree hdr s (a + hdr)) r

/-- The expected live-record list (newest first) after a sequence of
events, starting from live list `l`. -/
def liveAfter : List HeapOp → List (Nat × List Nat) → List (Nat × List Nat)
  | [], l => l
  | HeapOp.alloc _ a bt :: r, l => liveAfter r (if a = 0 then l else (a, bt) :: l)
  | HeapOp.release a :: r, l => liveAfter r (l.eraseP (fun q => q.1 == a))

/-- Validity of an event sequence against live list `l`: every successful
allocation uses a fresh nonzero record address (the super heap's contract)
and every release targets exactly one currently live allocation. -/
def validOps : List (Nat × List Nat) → List HeapOp → Prop
  | _, [] => True
  | l, HeapOp.alloc _ a bt :: r =>
      if a = 0 then validOps l r
      else a ∉ l.map Prod.fst ∧ validOps ((a, bt) :: l) r
  | l, HeapOp.release a :: r =>
      a ∈ l.map Prod.fst ∧ validOps (l.eraseP (fun q => q.1 == a)) r

theorem eraseP_middle {l1 l2 : List (Nat × List Nat)} {a : Nat} {f : List Nat}
    (h : a ∉ l1.map Prod.fst) :
    (l1 ++ (a, f) :: l2).eraseP (fun q => q.1 == a) = l1 ++ l2 := by
  induction l1 with
  | nil =>
    rw [List.nil_append, List.eraseP_cons]
    simp
  | cons c l1' ih =>
    have hca : (c.1 == a) = false := by
      simp only [beq_eq_false_iff_ne, ne_eq]
      intro he
      exact h (by simp [he])
    rw [List.cons_append, List.eraseP_cons, ih (fun hmem => h (by simp [hmem]))]
    simp [hca]

theorem mem_fst_split {l : List (Nat × List Nat)} {a : Nat} (h : a ∈ l.map Prod.fst) :
    ∃ l1 f l2, l = l1 ++ (a, f) :: l2 ∧ a ∉ l1.map Prod.fst := by
  induction l with
  | nil => cases h
  | cons c t ih =>
    by_cases hca : c.1 = a
    · refine ⟨[], c.2, t, ?_, by simp⟩
      rw [List.nil_append]
      have : c = (a, c.2) := Prod.ext hca rfl
      rw [← this]
    · have hmem : a ∈ t.map Prod.fst := by
        simp only [List.map_cons, List.mem_cons] at h
        exact h.resolve_left (fun he => hca he.symm)
      obtain ⟨l1, f, l2, heq, hni⟩ := ih hmem
      refine ⟨c :: l1, f, l2, by rw [heq, List.cons_append], ?_⟩
      simp only [List.map_cons, List.mem_cons]
      intro hor
      rcases hor with he | he
      · exact hca he.symm
      · exact hni he

/-- Running a valid event sequence keeps the registry representing the
expected live list. -/
theorem represents_runOps (hdr : Nat) :
    ∀ (ops : List HeapOp) (s : BtState) (l : List (Nat × List Nat)),
    represents s l → validOps l ops →
    represents (runOps hdr s ops) (liveAfter ops l) := by
  intro ops
  induction ops with
  | nil => intro s l hr _; exact hr
  | cons op r ih =>
    cases op with
    | alloc sz a bt =>
      intro s l hr hv
      by_cases ha : a = 0
      · subst ha
        simp only [runOps, liveAfter, btMalloc, if_pos rfl] at *
        simp only [validOps, if_pos rfl] at hv
        exact ih s l hr hv
      · simp only [runOps, liveAfter, if_neg ha]
        simp only [validOps, if_neg ha] at hv
        exact ih _ _ (represents_btMalloc hr ha hv.1) hv.2
    | release a =>
      intro s l hr hv
      obtain ⟨hmem, hv'⟩ := hv
      obtain ⟨l1, f, l2, rfl, hnotin⟩ := mem_fst_split hmem
      simp only [runOps, liveAfter]
      rw [eraseP_middle hnotin]
      have hfree : btFree hdr s (a + hdr) = unlink s a := by
        simp [btFree, Nat.add_sub_cancel]
      rw [hfree]
      rw [eraseP_middle hnotin] at hv'
      exact ih _ _ (represents_unlink hr) hv'

/-- C7: for every sequence of allocate/release events in which each release
passes the payload pointer of exactly one prior still-live allocation and
every successful allocation is eventually released (the final live list is
empty), the registry head `_objects` is null afterwards. -/
theorem leak_registry_roundtrip (hdr : Nat) (m0 : Nat → TraceObj) (ops : List HeapOp)
    (hv : validOps [] ops) (hempty : liveAfter ops [] = []) :
    (runOps hdr ⟨m0, 0⟩ ops).objects = 0 := by
  have h0 : represents ⟨m0, 0⟩ [] := ⟨rfl, List.nodup_nil⟩
  have hfin := represents_runOps hdr ops ⟨m0, 0⟩ [] h0 hv
  rw [hempty] at hfin
  exact hfin.1

/-- C7 witness: two allocations (records 8 and 32) and their two releases,
in LIFO order for one and FIFO for the other, leave the registry empty. -/
theorem leak_registry_roundtrip_witness :
    validOps [] [HeapOp.alloc 5 8 [1, 2], HeapOp.alloc 7 32 [3],
      HeapOp.release 8, HeapOp.release 32] ∧
    liveAfter [HeapOp.alloc 5 8 [1, 2], HeapOp.alloc 7 32 [3],
      HeapOp.release 8, HeapOp.release 32] [] = [] ∧
    (runOps 16 ⟨fun _ => ⟨[], 0, 0⟩, 0⟩ [HeapOp.alloc 5 8 [1, 2], HeapOp.alloc 7 32 [3],
      HeapOp.release 8, HeapOp.release 32]).objects = 0 := by
  have h1 : validOps [] [HeapOp.alloc 5 8 [1, 2], HeapOp.alloc 7 32 [3],
      HeapOp.release 8, HeapOp.release 32] := by
    simp [validOps, List.eraseP_cons]
  have h2 : liveAfter [HeapOp.alloc 5 8 [1, 2], HeapOp.alloc 7 32 [3],
      HeapOp.release 8, HeapOp.release 32] [] = [] := rfl
  exact ⟨h1, h2, leak_registry_roundtrip 16 (fun _ => ⟨[], 0, 0⟩) _ h1 h2⟩

/-- C5: `BacktraceHeap::malloc(n)` requests exactly `n + sizeof(TraceObj)`
from the nested heap; if the nested heap returns null it returns null with
the registry (memory and head pointer) unchanged; otherwise it stores the
captured call stack in the new record, links the record at the head of the
live list, and returns the record address advanced by exactly one header. -/
theorem leak_allocate_behaviour (hdr sz a : Nat) (bt : List Nat) (s : BtState)
    (l : List (Nat × List Nat)) (hr : represents s l) :
    (btMalloc hdr s sz a bt).reqSize = sz + hdr ∧
    (a = 0 → (btMalloc hdr s sz a bt).ret = 0 ∧ (btMalloc hdr s sz a bt).state = s) ∧
    (a ≠ 0 → a ∉ l.map Prod.fst →
      (btMalloc hdr s sz a bt).ret = a + hdr ∧
      (btMalloc hdr s sz a bt).state.objects = a ∧
      ((btMalloc hdr s sz a bt).state.mem a).callStack = bt ∧
      represents (btMalloc hdr s sz a bt).state ((a, bt) :: l)) := by
  refine ⟨?_, ?_, ?_⟩
  · by_cases ha : a = 0 <;> simp [btMalloc, ha]
  · intro ha
    subst ha
    exact ⟨rfl, rfl⟩
  · intro ha hm
    have hrep : represents (btMalloc hdr s sz a bt).state ((a, bt) :: l) :=
      represents_btMalloc hr ha hm
    obtain ⟨hchain, _⟩ := hrep
    obtain ⟨h1, _, _, h4, _⟩ := hchain
    exact ⟨by simp [btMalloc, ha], h1, h4, represents_btMalloc hr ha hm⟩

/-- C5 witness: a 5-byte request with header width 16 on the empty registry,
where the nested heap returns record address 8 and the backtrace is
`[1, 2]`, requests 21 bytes, returns payload pointer 24, and yields a
registry headed by record 8 holding `[1, 2]`. -/
theorem leak_allocate_behaviour_witness :
    (btMalloc 16 ⟨fun _ => ⟨[], 0, 0⟩, 0⟩ 5 8 [1, 2]).reqSize = 5 + 16 ∧
    (btMalloc 16 ⟨fun _ => ⟨[], 0, 0⟩, 0⟩ 5 8 [1, 2]).ret = 8 + 16 ∧
    (btMalloc 16 ⟨fun _ => ⟨[], 0, 0⟩, 0⟩ 5 8 [1, 2]).state.objects = 8 ∧
    ((btMalloc 16 ⟨fun _ => ⟨[], 0, 0⟩, 0⟩ 5 8 [1, 2]).state.mem 8).callStack = [1, 2] := by
  have hr : represents ⟨fun _ => ⟨[], 0, 0⟩, 0⟩ [] := ⟨rfl, List.nodup_nil⟩
  obtain ⟨h1, _, h3⟩ := leak_allocate_behaviour 16 5 8 [1, 2] ⟨fun _ => ⟨[], 0, 0⟩, 0⟩ [] hr
  obtain ⟨r1, r2, r3, _⟩ := h3 (by decide) (by simp)
  exact ⟨h1, r1, r2, r3⟩

/-- C6: for a pointer returned by a successful `BacktraceHeap::malloc(n)`,
`getSize` reports the nested heap's size for the record address minus the
header width — never including the header's bytes — and that value is at
least the `n` originally requested, assuming the nested heap's
`size_of(allocate(m)) >= m` contract for the `m = n + header` request. -/
theorem leak_getSize_usable (superGetSize : Nat → Nat) (hdr sz a : Nat) (bt : List Nat)
    (s : BtState) (ha : a ≠ 0) (hinv : sz + hdr ≤ superGetSize a) :
    btGetSize superGetSize hdr ((btMalloc hdr s sz a bt).ret) = superGetSize a - hdr ∧
    sz ≤ btGetSize superGetSize hdr ((btMalloc hdr s sz a bt).ret) := by
  have hret : (btMalloc hdr s sz a bt).ret = a + hdr := by simp [btMalloc, ha]
  rw [hret]
  unfold btGetSize
  rw [Nat.add_sub_cancel]
  exact ⟨rfl, by omega⟩

/-- C6 witness: header width 16, request 5, record address 8, nested
reported size 32: the caller-visible size is 16 and `5 <= 16`. -/
theorem leak_getSize_usable_witness :
    (8 : Nat) ≠ 0 ∧ 5 + 16 ≤ 32 ∧
    btGetSize (fun _ => 32) 16 ((btMalloc 16 ⟨fun _ => ⟨[], 0, 0⟩, 0⟩ 5 8 [1]).ret) = 32 - 16 ∧
    5 ≤ btGetSize (fun _ => 32) 16 ((btMalloc 16 ⟨fun _ => ⟨[], 0, 0⟩, 0⟩ 5 8 [1]).ret) := by
  obtain ⟨w1, w2⟩ := leak_getSize_usable (fun _ => 32) 16 5 8 [1]
    ⟨fun _ => ⟨[], 0, 0⟩, 0⟩ (by decide) (by decide)
  exact ⟨by decide, by decide, w1, w2⟩

/-- Along a chain, every listed record's non-null `prev` points back to a
record whose `next` is the record itself, and symmetrically for `next`. -/
theorem chainFrom_backlinks {mem : Nat → TraceObj} :
    ∀ {l : List (Nat × List Nat)} {p h : Nat},
    chainFrom mem p h l → (p = 0 ∨ (mem p).next = h) →
    ∀ q ∈ l, ((mem q.1).prev ≠ 0 → (mem ((mem q.1).prev)).next = q.1) ∧
             ((mem q.1).next ≠ 0 → (mem ((mem q.1).next)).prev = q.1) := by
  intro l
  induction l with
  | nil => intro p h _ _ q hq; cases hq
  | cons c t ih =>
    intro p h hc hback q hq
    obtain ⟨h1, h2, h3, h4, h5⟩ := hc
    rcases List.mem_cons.mp hq with rfl | hq'
    · constructor
      · intro hpne
        rw [h3] at hpne ⊢
        rcases hback with hb | hb
        · exact absurd hb hpne
        · exact hb.trans h1
      · intro hnne
        cases t with
        | nil => exact absurd h5 hnne
        | cons d t' =>
          obtain ⟨hd1, _, hd3, _, _⟩ := h5
          rw [hd1]
          exact hd3
    · exact ih h5 (Or.inr rfl) q hq'

/-- C10: in every represented registry state the intrusive doubly-linked
list is well-formed — the head record's `prev` is null, and every listed
record's non-null `next`/`prev` neighbour points back to it — and each
operation preserves representation: `malloc` links exactly the new record
at the head, `free` unlinks exactly the released record, and `clear_leaks`
empties the registry. -/
theorem leak_registry_wf (hdr : Nat) (s : BtState) (l : List (Nat × List Nat))
    (hr : represents s l) :
    (s.objects ≠ 0 → (s.mem s.objects).prev = 0) ∧
    (∀ q ∈ l, ((s.mem q.1).prev ≠ 0 → (s.mem ((s.mem q.1).prev)).next = q.1) ∧
              ((s.mem q.1).next ≠ 0 → (s.mem ((s.mem q.1).next)).prev = q.1)) ∧
    (∀ sz a bt, a ≠ 0 → a ∉ l.map Prod.fst →
      represents (btMalloc hdr s sz a bt).state ((a, bt) :: l)) ∧
    (∀ l1 a f l2, l = l1 ++ (a, f) :: l2 →
      represents (btFree hdr s (a + hdr)) (l1 ++ l2)) ∧
    represents (clearLeaks s) [] := by
  obtain ⟨hc, hnd⟩ := hr
  refine ⟨?_, chainFrom_backlinks hc (Or.inl rfl), ?_, ?_, ⟨rfl, List.nodup_nil⟩⟩
  · intro hone
    cases l with
    | nil => exact absurd hc hone
    | cons c t =>
      obtain ⟨h1, _, h3, _, _⟩ := hc
      rw [h1]
      exact h3
  · intro sz a bt ha hm
    exact represents_btMalloc ⟨hc, hnd⟩ ha hm
  · intro l1 a f l2 heq
    subst heq
    have hfree : btFree hdr s (a + hdr) = unlink s a := by
      simp [btFree, Nat.add_sub_cancel]
    rw [hfree]
    exact represents_unlink ⟨hc, hnd⟩

/-- C10 witness: in the one-record registry holding record 8, releasing the
payload pointer 24 (record 8 plus a 16-byte header) leaves the registry
representing the empty list. -/
theorem leak_registry_wf_witness :
    represents (btFree 16 ⟨fun x => if x = 8 then ⟨[1, 2], 0, 0⟩ else ⟨[], 0, 0⟩, 8⟩ (8 + 16))
      [] := by
  have hr : represents ⟨fun x => if x = 8 then ⟨[1, 2], 0, 0⟩ else ⟨[], 0, 0⟩, 8⟩
      [(8, [1, 2])] := ⟨⟨rfl, by decide, rfl, rfl, rfl⟩, by simp⟩
  exact (leak_registry_wf 16 _ _ hr).2.2.2.1 [] 8 [1, 2] [] rfl

/-- One line of `print_leaks` output at the record level: either the leak
entry for one record — its usable size, payload address, and captured call
stack (each frame's symbolication is modelled separately) — or the `---`
separator. -/
inductive LeakLine
  | entry (size : Nat) (addr : Nat) (frames : List Nat)
  | sep
  deriving Repr, DecidableEq

/-- The traversal loop of `BacktraceHeap::print_leaks` (backtraceheap.h
lines 119-145): walk the chain from `h` following `next`, emitting `---`
before every entry except the first (the `any` flag), and for each record
its usable size `SuperHeap::getSize(obj) - sizeof(TraceObj)`, its payload
address `obj + 1`, and its stored call stack.  `fuel` bounds the walk; a
represented chain is finite and never exhausts it. -/
def printLeaksFrom (sgs : Nat → Nat) (hdr : Nat) (mem : Nat → TraceObj) :
    Nat → Nat → Bool → List LeakLine
  | 0, _, _ => []
  | fuel + 1, h, anyb =>
      if h = 0 then []
      else
        (if anyb then [LeakLine.sep] else []) ++
        LeakLine.entry (sgs h - hdr) (h + hdr) ((mem h).callStack) ::
        printLeaksFrom sgs hdr mem fuel ((mem h).next) true

/-- `BacktraceHeap::print_leaks` output: the traversal starts at `_objects`
with the `any` flag clear. -/
def printLeaks (sgs : Nat → Nat) (hdr : Nat) (s : BtState) (fuel : Nat) : List LeakLine :=
  printLeaksFrom sgs hdr s.mem fuel s.objects false

theorem printLeaksFrom_spec (sgs : Nat → Nat) (hdr : Nat) (mem : Nat → TraceObj) :
    ∀ (l : List (Nat × List Nat)) (p h fuel : Nat) (anyb : Bool),
    chainFrom mem p h l → l.length ≤ fuel →
    printLeaksFrom sgs hdr mem fuel h anyb =
      (if l = [] then ([] : List LeakLine) else
        (if anyb then [LeakLine.sep] else []) ++
        List.intersperse LeakLine.sep
          (l.map (fun q => LeakLine.entry (sgs q.1 - hdr) (q.1 + hdr) q.2))) := by
  intro l
  induction l with
  | nil =>
    intro p h fuel anyb hc _
    have h0 : h = 0 := hc
    cases fuel with
    | zero => simp [printLeaksFrom]
    | succ g => simp [printLeaksFrom, h0]
  | cons c t ih =>
    intro p h fuel anyb hc hlen
    obtain ⟨h1, h2, h3, h4, h5⟩ := hc
    cases fuel with
    | zero => simp at hlen
    | succ g =>
      have hg : t.length ≤ g := by simpa using hlen
      have hne : h ≠ 0 := by rw [h1]; exact h2
      simp only [printLeaksFrom, if_neg hne]
      rw [h1, h4, ih c.1 (mem c.1).next g true h5 hg]
      cases t with
      | nil => simp
      | cons d t' => simp [List.intersperse]

/-- C8: for every valid event trace, `print_leaks` walks the live list
newest-first (the reverse of allocation order, since `link` prepends), and
writes for each live record its usable size (nested size minus header),
its payload address (record address plus one header), and its stored call
stack, with a `---` separator between consecutive entries; a record is
reported exactly when it is in the live list at traversal time. -/
theorem leak_report_output (sgs : Nat → Nat) (hdr : Nat) (m0 : Nat → TraceObj)
    (ops : List HeapOp) (fuel : Nat) (hv : validOps [] ops)
    (hfuel : (liveAfter ops []).length ≤ fuel) :
    printLeaks sgs hdr (runOps hdr ⟨m0, 0⟩ ops) fuel =
      List.intersperse LeakLine.sep
        ((liveAfter ops []).map
          (fun q => LeakLine.entry (sgs q.1 - hdr) (q.1 + hdr) q.2)) := by
  have hrep := represents_runOps hdr ops ⟨m0, 0⟩ [] ⟨rfl, List.nodup_nil⟩ hv
  have hspec := printLeaksFrom_spec sgs hdr (runOps hdr ⟨m0, 0⟩ ops).mem
    (liveAfter ops []) 0 (runOps hdr ⟨m0, 0⟩ ops).objects fuel false hrep.1 hfuel
  unfold printLeaks
  rw [hspec]
  by_cases he : liveAfter ops [] = []
  · simp [he]
  · simp [he]

/-- C8 witness: after two un-released allocations (records 8 then 32, with
nested reported size 48 and header 16), `print_leaks` reports record 32
first and record 8 second, separated by one `---`. -/
theorem leak_report_output_witness :
    validOps [] [HeapOp.alloc 5 8 [1, 2], HeapOp.alloc 7 32 [3]] ∧
    (liveAfter [HeapOp.alloc 5 8 [1, 2], HeapOp.alloc 7 32 [3]] []).length ≤ 2 ∧
    printLeaks (fun _ => 48) 16
        (runOps 16 ⟨fun _ => ⟨[], 0, 0⟩, 0⟩ [HeapOp.alloc 5 8 [1, 2], HeapOp.alloc 7 32 [3]]) 2 =
      [LeakLine.entry 32 48 [3], LeakLine.sep, LeakLine.entry 32 24 [1, 2]] := by
  have hv : validOps [] [HeapOp.alloc 5 8 [1, 2], HeapOp.alloc 7 32 [3]] := by
    simp [validOps]
  have hlen : (liveAfter [HeapOp.alloc 5 8 [1, 2], HeapOp.alloc 7 32 [3]] []).length ≤ 2 := by
    decide
  have h := leak_report_output (fun _ => 48) 16 (fun _ => ⟨[], 0, 0⟩)
    [HeapOp.alloc 5 8 [1, 2], HeapOp.alloc 7 32 [3]] 2 hv hlen
  refine ⟨hv, hlen, ?_⟩
  rw [h]
  decide

/-! ## Callstack symbolication (src/utility/callstack.h)

`Callstack::print` resolves each captured frame address in tiers: `dladdr`
is queried first for the owning module (`dli_fname`, printed in brackets;
on failure the `Dl_info` is zeroed, modelled as all-none); then the
libbacktrace `backtrace_pcinfo` callback runs zero or more times per
address (zero when the backend is absent or has no debug info), each
invocation possibly yielding a function name and/or a file:line pair and
setting `hasInfo`; only if `hasInfo` is still false afterwards and
`dli_sname` is non-null does the code print the dynamic symbol plus the
byte offset `frame - dli_saddr`.  `dem` models `demangle` (`none` = the
demangler failed, the raw name is printed); `norm` models `normalize`. -/

/-- The `Dl_info` fields `Callstack::print` uses: module path, nearest
preceding dynamic symbol name and its start address. -/
structure DlInfo where
  fname : Option String
  sname : Option String
  saddr : Nat
  deriving Repr, DecidableEq

/-- One invocation of the `backtrace_pcinfo` callback: an optional function
name and an optional source position. -/
structure PcInfo where
  func : Option String
  filename : Option String
  lineno : Nat
  deriving Repr, DecidableEq

/-- Tokens of the per-frame output of `Callstack::print`, in emission
order: the raw frame address, the bracketed module path, the continuation
prefix for additional inlined results, a resolved function name, a
`file:line` pair, and the dynamic-symbol-plus-offset form. -/
inductive FrameOut
  | addr (a : Nat)
  | modulePath (path : String)
  | cont
  | funcName (name : String)
  | fileLine (file : String) (line : Nat)
  | symPlusOffset (name : String) (offset : Nat)
  deriving Repr, DecidableEq

/-- Whether one `backtrace_pcinfo` callback invocation contributed
information (set `hasInfo`). -/
def pcHasInfo (pc : PcInfo) : Bool :=
  pc.func.isSome || (pc.filename.isSome && pc.lineno != 0)

/-- One `backtrace_pcinfo` callback body (callstack.h lines 160-186): if
`hasInfo` is already set, print the continuation prefix; if a function name
is present, set `hasInfo` and print it demangled when possible; if a
filename with nonzero line is present, set `hasInfo` and print it. -/
def pcStep (dem : String → Option String) (norm : String → String)
    (st : Bool × List FrameOut) (pc : PcInfo) : Bool × List FrameOut :=
  let contOut : List FrameOut := if st.1 then [FrameOut.cont] else []
  let o1 : List FrameOut :=
    match pc.func with
    | some f => [FrameOut.funcName ((dem f).getD f)]
    | none => []
  let o2 : List FrameOut :=
    match pc.filename with
    | some fl => if pc.lineno ≠ 0 then [FrameOut.fileLine (norm fl) pc.lineno] else []
    | none => []
  (st.1 || pc.func.isSome || (pc.filename.isSome && pc.lineno != 0),
   st.2 ++ contOut ++ o1 ++ o2)

/-- The `[module]` token, printed whenever `dladdr` produced a module. -/
def moduleOut (norm : String → String) (info : DlInfo) : List FrameOut :=
  match info.fname with
  | some m => [FrameOut.modulePath (norm m)]
  | none => []

/-- One iteration of the frame loop of `Callstack::print` (callstack.h
lines 146-200): print the address, then the module if `dladdr` found one,
then run the `backtrace_pcinfo` callbacks, and only if they produced no
information and a dynamic symbol exists, print it (demangled when
possible) with the offset of the address from the symbol start. -/
def printFrame (dem : String → Option String) (norm : String → String)
    (a : Nat) (info : DlInfo) (pcs : List PcInfo) : List FrameOut :=
  FrameOut.addr a :: moduleOut norm info ++
    (pcs.foldl (pcStep dem norm) (false, [])).2 ++
    (if (pcs.foldl (pcStep dem norm) (false, [])).1 = false then
      (match info.sname with
       | some sn => [FrameOut.symPlusOffset ((dem sn).getD sn) (a - info.saddr)]
       | none => [])
     else [])

theorem foldl_pcStep_out (dem : String → Option String) (norm : String → String) :
    ∀ (pcs : List PcInfo) (b : Bool) (out : List FrameOut),
    (pcs.foldl (pcStep dem norm) (b, out)).2 =
      out ++ (pcs.foldl (pcStep dem norm) (b, [])).2 := by
  intro pcs
  induction pcs with
  | nil => intro b out; simp
  | cons pc rest ih =>
    intro b out
    simp only [List.foldl_cons]
    have hsplit : pcStep dem norm (b, out) pc =
        ((pcStep dem norm (b, []) pc).1, out ++ (pcStep dem norm (b, []) pc).2) := by
      simp [pcStep]
    have hr := ih (pcStep dem norm (b, []) pc).1 (pcStep dem norm (b, []) pc).2
    rw [Prod.mk.eta] at hr
    rw [hsplit, ih, hr, List.append_assoc]

theorem foldl_pcStep_fst (dem : String → Option String) (norm : String → String) :
    ∀ (pcs : List PcInfo) (b : Bool) (out : List FrameOut),
    (pcs.foldl (pcStep dem norm) (b, out)).1 = (b || pcs.any pcHasInfo) := by
  intro pcs
  induction pcs with
  | nil => intro b out; simp
  | cons pc rest ih =>
    intro b out
    simp only [List.foldl_cons, List.any_cons]
    have h := ih (pcStep dem norm (b, out) pc).1 (pcStep dem norm (b, out) pc).2
    rw [Prod.mk.eta] at h
    rw [h]
    have hfst : (pcStep dem norm (b, out) pc).1 = (b || pcHasInfo pc) := by
      simp [pcStep, pcHasInfo, Bool.or_assoc]
    rw [hfst, Bool.or_assoc]

theorem foldl_pcStep_noinfo (dem : String → Option String) (norm : String → String) :
    ∀ (pcs : List PcInfo), pcs.any pcHasInfo = false →
    List.foldl (pcStep dem norm) (false, []) pcs = (false, []) := by
  intro pcs
  induction pcs with
  | nil => intro _; rfl
  | cons pc rest ih =>
    intro hany
    simp only [List.any_cons, Bool.or_eq_false_iff] at hany
    obtain ⟨hpc, hrest⟩ := hany
    simp only [pcHasInfo, Bool.or_eq_false_iff] at hpc
    obtain ⟨hf, hfl⟩ := hpc
    have hfn : pc.func = none := by
      cases hcase : pc.func with
      | none => rfl
      | some f => rw [hcase] at hf; simp at hf
    have hstep : pcStep dem norm (false, []) pc = (false, []) := by
      simp only [pcStep, hfn]
      cases hcase : pc.filename with
      | none => simp
      | some fl =>
        rw [hcase] at hfl
        simp only [Option.isSome_some, Bool.true_and] at hfl
        have hln : pc.lineno = 0 := by simpa using hfl
        simp [hln]
    simp only [List.foldl_cons, hstep]
    exact ih hrest

theorem pcStep_out_tokens (dem : String → Option String) (norm : String → String)
    (b : Bool) (pc : PcInfo) :
    ∀ t ∈ (pcStep dem norm (b, []) pc).2,
      t = FrameOut.cont ∨ (∃ s, t = FrameOut.funcName s) ∨
      (∃ s ln, t = FrameOut.fileLine s ln) := by
  intro t ht
  simp only [pcStep, List.nil_append] at ht
  rcases List.mem_append.mp ht with h | h
  · rcases List.mem_append.mp h with h' | h'
    · by_cases hb : b
      · simp [hb] at h'
        exact Or.inl h'
      · simp [hb] at h'
    · cases hcase : pc.func with
      | none => rw [hcase] at h'; simp at h'
      | some f =>
        rw [hcase] at h'
        simp at h'
        exact Or.inr (Or.inl ⟨(dem f).getD f, h'⟩)
  · cases hcase : pc.filename with
    | none => rw [hcase] at h; simp at h
    | some fl =>
      rw [hcase] at h
      by_cases hln : pc.lineno ≠ 0
      · simp [hln] at h
        exact Or.inr (Or.inr ⟨norm fl, pc.lineno, h⟩)
      · simp [hln] at h

theorem foldl_pcStep_no_sym (dem : String → Option String) (norm : String → String) :
    ∀ (pcs : List PcInfo) (b : Bool) (n : String) (off : Nat),
    FrameOut.symPlusOffset n off ∉ (List.foldl (pcStep dem norm) (b, []) pcs).2 := by
  intro pcs
  induction pcs with
  | nil => intro b n off; simp
  | cons pc rest ih =>
    intro b n off
    simp only [List.foldl_cons]
    have h := foldl_pcStep_out dem norm rest (pcStep dem norm (b, []) pc).1
      (pcStep dem norm (b, []) pc).2
    rw [Prod.mk.eta] at h
    rw [h]
    intro hmem
    rcases List.mem_append.mp hmem with hin | hin
    · rcases pcStep_out_tokens dem norm b pc _ hin with he | ⟨s, he⟩ | ⟨s, ln, he⟩ <;> cases he
    · exact ih (pcStep dem norm (b, []) pc).1 n off hin

theorem foldl_pcStep_mem_funcName (dem : String → Option String) (norm : String → String) :
    ∀ (pcs : List PcInfo) (b : Bool) (pc : PcInfo), pc ∈ pcs → ∀ f : String,
    pc.func = some f →
    FrameOut.funcName ((dem f).getD f) ∈ (List.foldl (pcStep dem norm) (b, []) pcs).2 := by
  intro pcs
  induction pcs with
  | nil => intro b pc hpc; cases hpc
  | cons hd rest ih =>
    intro b pc hpc f hf
    simp only [List.foldl_cons]
    have hout := foldl_pcStep_out dem norm rest (pcStep dem norm (b, []) hd).1
      (pcStep dem norm (b, []) hd).2
    rw [Prod.mk.eta] at hout
    rw [hout]
    rcases List.mem_cons.mp hpc with rfl | htail
    · refine List.mem_append_left _ ?_
      simp [pcStep, hf]
    · exact List.mem_append_right _ (ih (pcStep dem norm (b, []) hd).1 pc htail f hf)

/-- C9: per captured frame, the symbolication tiers are used strictly in
priority order.  (i) When any `backtrace_pcinfo` callback produced
information, the dynamic-symbol tier emits nothing.  (ii) When the debug
tier produced nothing and `dladdr` found a symbol, the output is exactly
the raw address, the module path, and the symbol (demangled when possible)
with the byte offset of the address from the symbol's start.  (iii) When
neither tier yields anything, only the raw address and the module path are
reported.  (iv) The debug tier can report several results for one address
(inlined frames): every callback carrying a function name contributes its
own token. -/
theorem callstack_symbolication_tiers (dem : String → Option String)
    (norm : String → String) (a : Nat) (info : DlInfo) (pcs : List PcInfo) :
    (pcs.any pcHasInfo = true →
      ∀ n off, FrameOut.symPlusOffset n off ∉ printFrame dem norm a info pcs) ∧
    (pcs.any pcHasInfo = false → ∀ sn, info.sname = some sn →
      printFrame dem norm a info pcs =
        FrameOut.addr a :: (moduleOut norm info ++
          [FrameOut.symPlusOffset ((dem sn).getD sn) (a - info.saddr)])) ∧
    (pcs.any pcHasInfo = false → info.sname = none →
      printFrame dem norm a info pcs = FrameOut.addr a :: moduleOut norm info) ∧
    (∀ pc ∈ pcs, ∀ f, pc.func = some f →
      FrameOut.funcName ((dem f).getD f) ∈ printFrame dem norm a info pcs) := by
  refine ⟨?_, ?_, ?_, ?_⟩
  · intro hany n off hmem
    unfold printFrame at hmem
    rw [foldl_pcStep_fst dem norm pcs false []] at hmem
    simp only [Bool.false_or, hany] at hmem
    rcases List.mem_cons.mp hmem with he | hmem'
    · cases he
    · rcases List.mem_append.mp hmem' with hmem'' | hmem''
      · rcases List.mem_append.mp hmem'' with hm | hm
        · unfold moduleOut at hm
          cases hcase : info.fname with
          | none => rw [hcase] at hm; simp at hm
          | some m => rw [hcase] at hm; simp at hm
        · exact foldl_pcStep_no_sym dem norm pcs false n off hm
      · simp at hmem''
  · intro hany sn hsn
    unfold printFrame
    rw [foldl_pcStep_noinfo dem norm pcs hany, hsn]
    simp
  · intro hany hsn
    unfold printFrame
    rw [foldl_pcStep_noinfo dem norm pcs hany, hsn]
    simp
  · intro pc hpc f hf
    unfold printFrame
    refine List.mem_cons_of_mem _ ?_
    refine List.mem_append_left _ (List.mem_append_right _ ?_)
    exact foldl_pcStep_mem_funcName dem norm pcs false pc hpc f hf

/-- C9 witness: with a frame at address 100 in module `m` whose symbol
`sym` starts at 60: when the debug tier yields one entry with function `fn`,
no symbol-plus-offset token appears; when the debug tier yields nothing,
the output is exactly the address, the module, and `sym+40`. -/
theorem callstack_symbolication_tiers_witness :
    (([⟨some "fn", none, 0⟩] : List PcInfo).any pcHasInfo = true ∧
      FrameOut.symPlusOffset "sym" 40 ∉
        printFrame (fun _ => none) id 100 ⟨some "m", some "sym", 60⟩ [⟨some "fn", none, 0⟩]) ∧
    (([] : List PcInfo).any pcHasInfo = false ∧
      printFrame (fun _ => none) id 100 ⟨some "m", some "sym", 60⟩ [] =
        FrameOut.addr 100 :: (moduleOut id ⟨some "m", some "sym", 60⟩ ++
          [FrameOut.symPlusOffset "sym" (100 - 60)])) := by
  constructor
  · refine ⟨rfl, ?_⟩
    exact (callstack_symbolication_tiers (fun _ => none) id 100
      ⟨some "m", some "sym", 60⟩ [⟨some "fn", none, 0⟩]).1 rfl "sym" 40
  · refine ⟨rfl, ?_⟩
    exact (callstack_symbolication_tiers (fun _ => none) id 100
      ⟨some "m", some "sym", 60⟩ []).2.1 rfl "sym" rfl

end HeapLayers
